import Mathlib

/-!
# Verification of the videomcp segment-editing engine

Shallow embedding of the core of `src/tools/handlers.ts`:

* `parseTimeToSeconds`  — time-string parsing (TimeCode),
* `extractTimestampsFromResponse` — timestamp scraping (TimestampExtractor),
* `removeSegments`      — the segment planner (partsToKeep walk), the scratch-file
  lifecycle of the extraction/concatenation pipeline,
* `removeEventSegments` — the keep-one-event gate.

JavaScript numbers are modelled idealized: `JSNum` distinguishes `NaN`,
signed infinities and finite values, with finite values as exact rationals
(float rounding is not modelled; none of the verified properties depend on it).
-/

namespace VideoMCP

/-- Idealized JavaScript number: `NaN`, a signed infinity, or a finite
rational value. -/
inductive JSNum where
  | nan : JSNum
  | inf (neg : Bool) : JSNum
  | fin (q : ℚ) : JSNum
deriving DecidableEq, Repr

/-- JavaScript `+` on numbers: `NaN` is absorbing, opposite infinities give
`NaN`, an infinity absorbs finite values. -/
def jsAdd : JSNum → JSNum → JSNum
  | .nan, _ => .nan
  | _, .nan => .nan
  | .inf s, .inf t => if s = t then .inf s else .nan
  | .inf s, .fin _ => .inf s
  | .fin _, .inf t => .inf t
  | .fin a, .fin b => .fin (a + b)

/-- JavaScript `*` by a constant natural number (the code multiplies parsed
components by 3600 and 60). `Infinity * 0 = NaN` in JavaScript. -/
def jsMulConst (x : JSNum) (n : ℕ) : JSNum :=
  match x with
  | .nan => .nan
  | .inf s => if n = 0 then .nan else .inf s
  | .fin a => .fin (a * n)

/-- JavaScript `<` on numbers: any comparison involving `NaN` is false. -/
def jsLt : JSNum → JSNum → Bool
  | .nan, _ => false
  | _, .nan => false
  | .inf s, .inf t => s ∧ ¬t
  | .inf s, .fin _ => s
  | .fin _, .inf t => ¬t
  | .fin a, .fin b => a < b

/-- Value of a list of decimal digit characters, most significant first
(the accumulation JavaScript digit scanning performs). -/
def digitsToNat (ds : List Char) : ℕ :=
  ds.foldl (fun a c => a * 10 + (c.toNat - '0'.toNat)) 0

/-- Consume an optional leading sign, returning whether it was a minus. -/
def jsSign : List Char → Bool × List Char
  | [] => (false, [])
  | c :: rest =>
    if c = '-' then (true, rest)
    else if c = '+' then (false, rest)
    else (false, c :: rest)

/-- JavaScript `parseInt(s, 10)`: skip leading whitespace, optional sign,
then the longest prefix of decimal digits; `NaN` when there is none. -/
def jsParseInt (l : List Char) : JSNum :=
  let l1 := l.dropWhile Char.isWhitespace
  let sr := jsSign l1
  let ds := sr.2.takeWhile Char.isDigit
  if ds = [] then .nan
  else if sr.1 then .fin (-(digitsToNat ds : ℚ)) else .fin (digitsToNat ds)

/-- Exponent part of a JavaScript float literal: optional sign then digits;
an exponent with no digits contributes nothing (parseFloat backtracks). -/
def jsExpOf (l : List Char) : ℤ :=
  let sr := jsSign l
  let ds := sr.2.takeWhile Char.isDigit
  if ds = [] then 0
  else if sr.1 then -(digitsToNat ds : ℤ) else (digitsToNat ds : ℤ)

/-- JavaScript `parseFloat(s)`: skip whitespace, optional sign, then either
the literal `Infinity` or the longest decimal literal `digits [. digits]
[e/E [sign] digits]`; `NaN` when no digits occur in the mantissa. -/
def jsParseFloat (l : List Char) : JSNum :=
  let l1 := l.dropWhile Char.isWhitespace
  let sr := jsSign l1
  if List.isPrefixOf "Infinity".data sr.2 then .inf sr.1
  else
    let intDs := sr.2.takeWhile Char.isDigit
    let r1 := sr.2.dropWhile Char.isDigit
    let fr :=
      match r1 with
      | '.' :: rest => (rest.takeWhile Char.isDigit, rest.dropWhile Char.isDigit)
      | _ => (([] : List Char), r1)
    if intDs = [] ∧ fr.1 = [] then .nan
    else
      let mantissa : ℚ := (digitsToNat intDs : ℚ) + (digitsToNat fr.1 : ℚ) / (10 : ℚ) ^ fr.1.length
      let e : ℤ :=
        match fr.2 with
        | 'e' :: rest => jsExpOf rest
        | 'E' :: rest => jsExpOf rest
        | _ => 0
      let v := mantissa * (10 : ℚ) ^ e
      if sr.1 then .fin (-v) else .fin v

/-- JavaScript `String.prototype.trim`: strip whitespace from both ends. -/
def jsTrim (l : List Char) : List Char :=
  ((l.dropWhile Char.isWhitespace).reverse.dropWhile Char.isWhitespace).reverse

/-- JavaScript `String.prototype.split` with a single-character separator. -/
def jsSplitOn (sep : Char) : List Char → List (List Char)
  | [] => [[]]
  | c :: rest =>
    match jsSplitOn sep rest with
    | [] => if c = sep then [[], []] else [[c]]
    | h :: t => if c = sep then [] :: h :: t else (c :: h) :: t

/-- Discriminator for `Except` results (`true` on `.ok`). -/
def isOk {e a : Type} : Except e a → Bool
  | .ok _ => true
  | .error _ => false

/-- The distinct failures `parseTimeToSeconds` can raise, one per distinct
`throw` site in the source. -/
inductive TimeError where
  | missingTime : TimeError
  | emptyTime : TimeError
  | invalidFormat : TimeError
  | nanResult : TimeError
deriving DecidableEq, Repr

/-- Embedding of `parseTimeToSeconds` (handlers.ts lines 20–55). `none`
models a `null`/`undefined` input; a numeric input is represented by its
string form (the source applies `String(...)` first). -/
def parseTimeToSeconds (timeStr : Option String) : Except TimeError JSNum :=
  match timeStr with
  | none => .error .missingTime
  | some str =>
    let time := jsTrim str.data
    if time = [] then .error .emptyTime
    else if time.contains ':' then
      match jsSplitOn ':' time with
      | [p0, p1, p2] =>
        let totalSeconds :=
          jsAdd (jsAdd (jsAdd (.fin 0) (jsMulConst (jsParseInt p0) 3600))
            (jsMulConst (jsParseInt p1) 60)) (jsParseFloat p2)
        if totalSeconds = .nan then .error .nanResult else .ok totalSeconds
      | [p0, p1] =>
        let totalSeconds :=
          jsAdd (jsAdd (.fin 0) (jsMulConst (jsParseInt p0) 60)) (jsParseFloat p1)
        if totalSeconds = .nan then .error .nanResult else .ok totalSeconds
      | _ => .error .invalidFormat
    else
      let parsedSeconds := jsParseFloat time
      if parsedSeconds = .nan then .error .invalidFormat else .ok parsedSeconds

/-! ## TimestampExtractor: the regex scan of `extractTimestampsFromResponse` -/

/-- JavaScript word character (`\w` = `[A-Za-z0-9_]`), used by `\b`. -/
def isWordChar (c : Char) : Bool := c.isAlphanum || c = '_'

/-- The `\b` before a match of `\d{2}:…`: since the first matched character
is a digit (a word character), it holds exactly when the previous character
is absent or not a word character. -/
def wordBoundaryBefore : Option Char → Bool
  | none => true
  | some c => !isWordChar c

/-- The `\b` after the match: the last matched character is a digit, so it
holds exactly when the next character is absent or not a word character. -/
def wordBoundaryAfter : List Char → Bool
  | [] => true
  | c :: _ => !isWordChar c

/-- Attempt the regex `\b\d{2}:\d{2}:\d{2}(?:\.\d+)?\b` at the current
position (`prev` is the character just before it). Returns the matched
characters and the remaining input. The optional fractional group is
greedy but backtracks: if the digit run after `.` is followed by a word
character the whole group is dropped (the position after `\d{2}` is then
followed by `.`, a non-word character, so the trailing `\b` holds). -/
def tryTimestampMatch (prev : Option Char) (l : List Char) : Option (List Char × List Char) :=
  match l with
  | d1 :: d2 :: c1 :: d3 :: d4 :: c2 :: d5 :: d6 :: rest =>
    if wordBoundaryBefore prev ∧ d1.isDigit ∧ d2.isDigit ∧ c1 = ':' ∧ d3.isDigit ∧ d4.isDigit
        ∧ c2 = ':' ∧ d5.isDigit ∧ d6.isDigit then
      let core := [d1, d2, c1, d3, d4, c2, d5, d6]
      match rest with
      | '.' :: rest2 =>
        let ds := rest2.takeWhile Char.isDigit
        let rest3 := rest2.dropWhile Char.isDigit
        if ds ≠ [] ∧ wordBoundaryAfter rest3 then some (core ++ '.' :: ds, rest3)
        else some (core, rest)
      | _ => if wordBoundaryAfter rest then some (core, rest) else none
    else none
  | _ => none

/-- Global scan of `responseText.match(timestampRegex)`: walk the input left
to right, collecting non-overlapping matches in order of appearance.
`fuel` bounds the recursion; every step consumes at least one character, so
`l.length + 1` fuel computes the full scan. -/
def scanTimestamps : ℕ → Option Char → List Char → List String
  | 0, _, _ => []
  | fuel + 1, prev, l =>
    match tryTimestampMatch prev l with
    | some (m, rest) => m.asString :: scanTimestamps fuel m.getLast? rest
    | none =>
      match l with
      | [] => []
      | c :: cs => scanTimestamps fuel (some c) cs

/-- All matches of the timestamp regex in the text, in order of appearance
(`responseText.match(/\b(\d\x7b2\x7d:\d\x7b2\x7d:\d\x7b2\x7d(?:\.\d+)?)\b/g)`). -/
def timestampMatches (responseText : String) : List String :=
  scanTimestamps (responseText.data.length + 1) none responseText.data

/-- Consecutive pairing (match 0 with 1, 2 with 3, …); a trailing unpaired
element is dropped — the loop `for (i = 0; i < n; i += 2)` with the
`i + 1 < n` guard. -/
def pairUp : List String → List (String × String)
  | a :: b :: rest => (a, b) :: pairUp rest
  | _ => []

/-- Failure of the extractor. -/
inductive ExtractError where
  | noTimestampsFound : ExtractError
deriving DecidableEq, Repr

/-- Embedding of `extractTimestampsFromResponse` (handlers.ts 172–190):
collect all regex matches, pair them consecutively when at least two
matches exist, and fail when no pair was produced. -/
def extractTimestampsFromResponse (responseText : String) :
    Except ExtractError (List (String × String)) :=
  let ms := timestampMatches responseText
  let timestamps := if 2 ≤ ms.length then pairUp ms else []
  if timestamps.length = 0 then .error .noTimestampsFound else .ok timestamps

/-! ## SegmentPlanner: the `partsToKeep` walk of `removeSegments`

The source manipulates time *strings* but every comparison and every
emitted bound goes through `parseTimeToSeconds`; the planner is embedded
over the parsed values (rationals). The initial cursor `"00:00:00"` parses
to `0`, and `totalDuration` is the probed duration after
`parseTimeToSeconds(duration).toFixed(6)`, represented by its value. -/

/-- A segment to remove, with parsed bounds (`startTime`/`endTime`). -/
structure Seg where
  startTime : ℚ
  endTime : ℚ
deriving DecidableEq, Repr

/-- The sort order of `segments.sort((a, b) => parse(a.startTime) - parse(b.startTime))`. -/
def leStart (a b : Seg) : Prop := a.startTime ≤ b.startTime

instance : DecidableRel leStart := fun a b => inferInstanceAs (Decidable (a.startTime ≤ b.startTime))

instance : IsTotal Seg leStart := ⟨fun a b => le_total a.startTime b.startTime⟩

instance : IsTrans Seg leStart := ⟨fun _ _ _ h1 h2 => le_trans h1 h2⟩

/-- The cursor walk of `removeSegments` (handlers.ts 224–233): for each
segment in order, emit `[prevEnd, startTime)` when `prevEnd < startTime`,
then set the cursor to `endTime`; after the walk emit the final
`[prevEnd, totalDuration)` when `prevEnd < totalDuration`. -/
def partsToKeep (totalDuration : ℚ) : ℚ → List Seg → List (ℚ × ℚ)
  | prevEnd, [] => if prevEnd < totalDuration then [(prevEnd, totalDuration)] else []
  | prevEnd, seg :: rest =>
    (if prevEnd < seg.startTime then [(prevEnd, seg.startTime)] else [])
      ++ partsToKeep totalDuration seg.endTime rest

/-- The planner of `removeSegments`: sort by start (JavaScript `sort` is
stable; the comparator subtracts parsed starts), then run the cursor walk
from `0`. -/
def removeSegmentsPlan (totalDuration : ℚ) (segments : List Seg) : List (ℚ × ℚ) :=
  partsToKeep totalDuration 0 (List.insertionSort leStart segments)

/-- The successive values taken by the `prevEnd` cursor during the walk:
`0` initially, then each sorted segment's `endTime`. -/
def cursorTrace (segments : List Seg) : List ℚ :=
  0 :: (List.insertionSort leStart segments).map Seg.endTime

/-- One step of the spec's cursor walk (§4.3): for each remove-interval,
if `cursor < interval.start`, emit retain-interval `[cursor, interval.start)`;
advance cursor to `interval.end`. -/
def specPlanStep (st : List (ℚ × ℚ) × ℚ) (seg : Seg) : List (ℚ × ℚ) × ℚ :=
  if st.2 < seg.startTime then (st.1 ++ [(st.2, seg.startTime)], seg.endTime)
  else (st.1, seg.endTime)

/-- Modelled from the spec (§4.3): the complement algorithm described in
the spec's words — sort ascending by start, fold over the sorted set with
an explicit cursor state initialized to `0` emitting `[cursor, start)`
intervals, then emit the final `[cursor, totalDuration)` interval. Used to
compare the spec's description against the source's walk. -/
def specSegmentPlanner (totalDuration : ℚ) (segments : List Seg) : List (ℚ × ℚ) :=
  let final := (List.insertionSort leStart segments).foldl specPlanStep ([], 0)
  if final.2 < totalDuration then final.1 ++ [(final.2, totalDuration)] else final.1

/-! ## The scratch-artifact lifecycle of `removeSegments` (handlers.ts 198–264)

The extraction loop allocates `temp_part_<i>.mp4` for segment index `i`,
registering each name in `tempFiles` *before* invoking the encoder; the
concat step registers `temp_concat_list.txt` before writing it; the
`finally` block deletes every registered name that exists. External
encoder calls may fail; `extractOk i` / `concatOk` inject failures. -/

/-- The literal scratch name for extract index `i` (`temp_part_${i}.mp4`). -/
def tempPartName (i : ℕ) : String := "temp_part_" ++ toString i ++ ".mp4"

/-- The literal concat manifest name (`temp_concat_list.txt`). -/
def concatListName : String := "temp_concat_list.txt"

/-- Errors of the `removeSegments` pipeline. -/
inductive SegError where
  | probeFailed : SegError
  | extractionFailed (i : ℕ) : SegError
  | emptyRetain : SegError
  | concatFailed : SegError
deriving DecidableEq, Repr

/-- The extraction loop: for each part in order, register the scratch name,
then run the encoder; a failure aborts the loop (the registered name may
name a missing file — the cleanup tolerates that). Returns the registered
names, the files actually created, and the index of the failing call. -/
def extractLoop (extractOk : ℕ → Bool) : ℕ → List (ℚ × ℚ) → List String × List String × Option ℕ
  | _, [] => ([], [], none)
  | i, _ :: rest =>
    if extractOk i then
      let r := extractLoop extractOk (i + 1) rest
      (tempPartName i :: r.1, tempPartName i :: r.2.1, r.2.2)
    else ([tempPartName i], [], some i)

/-- Observable outcome of one `removeSegments` operation: the scratch names
registered for cleanup, the scratch files actually created, whether the
concat step ran, whether the final output was written, and the result. -/
structure RunTrace where
  tempFiles : List String
  createdScratch : List String
  concatAttempted : Bool
  outputCreated : Bool
  result : Except SegError Unit
deriving Repr

/-- Embedding of the effectful body of `removeSegments`: probe the duration
(`probeOk` injects probe failure, before any allocation), plan, extract
each part, then either concatenate or fail with the empty-retain error;
`finally` cleanup is modelled by `residualScratch`/`deletedFiles` below. -/
def removeSegmentsRun (probeOk : Bool) (totalDuration : ℚ) (segments : List Seg)
    (extractOk : ℕ → Bool) (concatOk : Bool) : RunTrace :=
  match probeOk with
  | false =>
    { tempFiles := [], createdScratch := [], concatAttempted := false,
      outputCreated := false, result := .error .probeFailed }
  | true =>
    let parts := removeSegmentsPlan totalDuration segments
    match extractLoop extractOk 0 parts with
    | (reg, created, some i) =>
      { tempFiles := reg, createdScratch := created, concatAttempted := false,
        outputCreated := false, result := .error (.extractionFailed i) }
    | (reg, created, none) =>
      if 0 < parts.length then
        { tempFiles := reg ++ [concatListName],
          createdScratch := created ++ [concatListName],
          concatAttempted := true,
          outputCreated := concatOk,
          result := if concatOk then .ok () else .error .concatFailed }
      else
        { tempFiles := reg, createdScratch := created, concatAttempted := false,
          outputCreated := false, result := .error .emptyRetain }

/-- The `finally` block: `unlinkSync` every registered file that exists
(`existsSync` tolerates already-missing names). -/
def deletedFiles (t : RunTrace) : List String :=
  t.tempFiles.filter (fun f => t.createdScratch.contains f)

/-- Scratch files still existing after the `finally` cleanup: created
scratch files never registered in `tempFiles`. -/
def residualScratch (t : RunTrace) : List String :=
  t.createdScratch.filter (fun f => !t.tempFiles.contains f)

/-! ## The keep-one-event gate of `removeEventSegments` (handlers.ts 277–310) -/

/-- Errors of `removeEventSegments` up to the planning hand-off. -/
inductive EventError where
  | noTimestampsFound : EventError
  | expectedExactlyOne : EventError
  | timeError : EventError
deriving DecidableEq, Repr

/-- Embedding of steps 2–4 of `removeEventSegments`: extract timestamp
pairs, require exactly one, then synthesize the remove set (everything
before and after the kept pair). Comparisons go through
`parseTimeToSeconds` exactly as in the source; the probed total duration is
represented by its parsed value. -/
def removeEventSegments (responseText : String) (totalDuration : ℚ) :
    Except EventError (List Seg) :=
  match extractTimestampsFromResponse responseText with
  | .error _ => .error .noTimestampsFound
  | .ok segmentsToKeep =>
    if segmentsToKeep.length ≠ 1 then .error .expectedExactlyOne
    else
      match segmentsToKeep with
      | [] => .error .expectedExactlyOne
      | p :: _ =>
        match parseTimeToSeconds (some "00:00:00"), parseTimeToSeconds (some p.1),
            parseTimeToSeconds (some p.2) with
        | .ok z, .ok (.fin s), .ok (.fin e) =>
          let pre := if jsLt z (.fin s) then [Seg.mk 0 s] else []
          let post := if jsLt (.fin e) (.fin totalDuration) then [Seg.mk e totalDuration] else []
          .ok (pre ++ post)
        | _, _, _ => .error .timeError

/-! ## Helper lemmas -/

theorem pairUp_length : ∀ l : List String, (pairUp l).length = l.length / 2
  | [] => by simp [pairUp]
  | [_] => by simp [pairUp]
  | _ :: _ :: rest => by
    simp only [pairUp, List.length_cons, pairUp_length rest]
    omega

theorem pairUp_getElem? : ∀ (l : List String) (k : ℕ),
    (pairUp l)[k]? = match l[2 * k]?, l[2 * k + 1]? with
      | some a, some b => some (a, b)
      | _, _ => none
  | [], k => by simp [pairUp]
  | [a], k => by
    cases k <;> simp [pairUp]
  | a :: b :: rest, k => by
    cases k with
    | zero => simp [pairUp]
    | succ k =>
      have h2 : 2 * (k + 1) = 2 * k + 1 + 1 := by omega
      simp only [pairUp, List.getElem?_cons_succ, h2, pairUp_getElem? rest k]

theorem partsToKeep_pos (d : ℚ) :
    ∀ (l : List Seg) (c : ℚ), ∀ p ∈ partsToKeep d c l, p.1 < p.2 := by
  intro l
  induction l with
  | nil =>
    intro c p hp
    simp only [partsToKeep] at hp
    split at hp
    · rcases List.mem_singleton.mp hp with rfl
      assumption
    · exact absurd hp (List.not_mem_nil p)
  | cons seg rest ih =>
    intro c p hp
    simp only [partsToKeep, List.mem_append] at hp
    rcases hp with hp | hp
    · split at hp
      · rcases List.mem_singleton.mp hp with rfl
        assumption
      · exact absurd hp (List.not_mem_nil p)
    · exact ih seg.endTime p hp

theorem partsToKeep_start_mem (d : ℚ) :
    ∀ (l : List Seg) (c : ℚ), ∀ p ∈ partsToKeep d c l,
      p.1 = c ∨ ∃ s ∈ l, p.1 = s.endTime := by
  intro l
  induction l with
  | nil =>
    intro c p hp
    simp only [partsToKeep] at hp
    split at hp
    · rcases List.mem_singleton.mp hp with rfl
      exact Or.inl rfl
    · exact absurd hp (List.not_mem_nil p)
  | cons seg rest ih =>
    intro c p hp
    simp only [partsToKeep, List.mem_append] at hp
    rcases hp with hp | hp
    · split at hp
      · rcases List.mem_singleton.mp hp with rfl
        exact Or.inl rfl
      · exact absurd hp (List.not_mem_nil p)
    · rcases ih seg.endTime p hp with h | ⟨s, hs, h⟩
      · exact Or.inr ⟨seg, List.mem_cons_self seg rest, h⟩
      · exact Or.inr ⟨s, List.mem_cons_of_mem seg hs, h⟩

theorem partsToKeep_chain (d : ℚ) :
    ∀ (l : List Seg) (c : ℚ), List.Sorted leStart l →
      (∀ s ∈ l, s.startTime < s.endTime) →
      List.Chain' (fun p q : ℚ × ℚ => p.2 < q.1) (partsToKeep d c l) := by
  intro l
  induction l with
  | nil =>
    intro c _ _
    simp only [partsToKeep]
    split
    · exact List.chain'_singleton _
    · exact List.chain'_nil
  | cons seg rest ih =>
    intro c hsorted hwf
    rcases List.sorted_cons.mp hsorted with ⟨hall, hrest⟩
    have hwfseg : seg.startTime < seg.endTime := hwf seg (List.mem_cons_self seg rest)
    have hwfrest : ∀ s ∈ rest, s.startTime < s.endTime :=
      fun s hs => hwf s (List.mem_cons_of_mem seg hs)
    have htail := ih seg.endTime hrest hwfrest
    have hhead : ∀ q ∈ (partsToKeep d seg.endTime rest).head?, seg.startTime < q.1 := by
      intro q hq
      have hqmem : q ∈ partsToKeep d seg.endTime rest := List.mem_of_mem_head? hq
      rcases partsToKeep_start_mem d rest seg.endTime q hqmem with h | ⟨s, hs, h⟩
      · rw [h]; exact hwfseg
      · rw [h]; exact lt_of_le_of_lt (hall s hs) (hwfrest s hs)
    simp only [partsToKeep]
    split
    · exact List.chain'_cons'.mpr ⟨hhead, htail⟩
    · simpa using htail

theorem chain_lt_pairwise :
    ∀ l : List (ℚ × ℚ), (∀ p ∈ l, p.1 < p.2) →
      List.Chain' (fun p q : ℚ × ℚ => p.2 < q.1) l →
      List.Pairwise (fun p q : ℚ × ℚ => p.2 < q.1) l := by
  intro l
  induction l with
  | nil => intro _ _; exact List.Pairwise.nil
  | cons a t ih =>
    intro hwf hchain
    cases t with
    | nil => exact List.pairwise_singleton _ _
    | cons b t2 =>
      have hab : a.2 < b.1 := (List.chain'_cons.mp hchain).1
      have htail := ih (fun p hp => hwf p (List.mem_cons_of_mem a hp))
        (List.chain'_cons.mp hchain).2
      refine List.pairwise_cons.mpr ⟨?_, htail⟩
      intro c hc
      rcases List.mem_cons.mp hc with rfl | hc
      · exact hab
      · have hbwf : b.1 < b.2 := hwf b (List.mem_cons_of_mem a (List.mem_cons_self b t2))
        have hbc : b.2 < c.1 := (List.pairwise_cons.mp htail).1 c hc
        exact hab.trans (hbwf.trans hbc)

theorem specPlanner_foldl_eq (d : ℚ) :
    ∀ (l : List Seg) (acc : List (ℚ × ℚ)) (c : ℚ),
      (if (l.foldl specPlanStep (acc, c)).2 < d
        then (l.foldl specPlanStep (acc, c)).1 ++ [((l.foldl specPlanStep (acc, c)).2, d)]
        else (l.foldl specPlanStep (acc, c)).1)
      = acc ++ partsToKeep d c l := by
  intro l
  induction l with
  | nil =>
    intro acc c
    simp only [List.foldl_nil, partsToKeep]
    split <;> simp
  | cons seg rest ih =>
    intro acc c
    simp only [List.foldl_cons, partsToKeep, specPlanStep]
    by_cases h : c < seg.startTime
    · simp only [if_pos h, ih (acc ++ [(c, seg.startTime)]) seg.endTime, List.append_assoc,
        List.singleton_append]
    · simp only [if_neg h, ih acc seg.endTime, List.nil_append]

/-! ## Claims -/

/-- C2: the planner computes the retain list by exactly the spec's steps
(sort ascending by start, cursor walk from 0 emitting `[cursor, start)`
intervals, final `[cursor, totalDuration)` interval); in particular
duration 100 with remove `[(10,20)]` retains `[(0,10),(20,100)]`, and
duration 60 with overlapping remove `[(10,20),(15,25)]` retains
`[(0,10),(25,60)]`. -/
theorem removeSegmentsPlan_follows_spec_algorithm :
    (∀ (d : ℚ) (l : List Seg), removeSegmentsPlan d l = specSegmentPlanner d l)
    ∧ removeSegmentsPlan 100 [Seg.mk 10 20] = [(0, 10), (20, 100)]
    ∧ removeSegmentsPlan 60 [Seg.mk 10 20, Seg.mk 15 25] = [(0, 10), (25, 60)] := by
  refine ⟨fun d l => ?_, by decide, by decide⟩
  have h := specPlanner_foldl_eq d (List.insertionSort leStart l) [] 0
  simp only [List.nil_append] at h
  simp only [removeSegmentsPlan, specSegmentPlanner]
  exact h.symm

/-- C1 (amended): for well-formed remove intervals (`end > start`), the
retain set satisfies the invariant — every retain interval is non-empty
and the intervals are pairwise strictly increasing and non-overlapping
(each interval ends strictly before the next starts), so overlapping
remove-intervals never produce overlapping retain intervals. The cursor
itself, however, does not advance monotonically (see the counterexample). -/
theorem removeSegmentsPlan_retain_invariant (d : ℚ) (l : List Seg)
    (hwf : ∀ s ∈ l, s.startTime < s.endTime) :
    (∀ p ∈ removeSegmentsPlan d l, p.1 < p.2)
    ∧ List.Pairwise (fun p q : ℚ × ℚ => p.2 < q.1) (removeSegmentsPlan d l) := by
  have hsorted : List.Sorted leStart (List.insertionSort leStart l) :=
    List.sorted_insertionSort leStart l
  have hwf2 : ∀ s ∈ List.insertionSort leStart l, s.startTime < s.endTime :=
    fun s hs => hwf s ((List.perm_insertionSort leStart l).subset hs)
  have hpos := partsToKeep_pos d (List.insertionSort leStart l) 0
  have hchain := partsToKeep_chain d (List.insertionSort leStart l) 0 hsorted hwf2
  exact ⟨hpos, chain_lt_pairwise _ hpos hchain⟩

/-- C1 witness: the invariant at duration 100, removes `[(10,50),(20,30)]`. -/
theorem removeSegmentsPlan_retain_invariant_witness :
    (∀ s ∈ [Seg.mk 10 50, Seg.mk 20 30], s.startTime < s.endTime)
    ∧ ((∀ p ∈ removeSegmentsPlan 100 [Seg.mk 10 50, Seg.mk 20 30], p.1 < p.2)
      ∧ List.Pairwise (fun p q : ℚ × ℚ => p.2 < q.1)
          (removeSegmentsPlan 100 [Seg.mk 10 50, Seg.mk 20 30])) :=
  ⟨by decide, removeSegmentsPlan_retain_invariant 100 _ (by decide)⟩

/-- C1 counterexample: the cursor does not advance monotonically. With the
well-formed remove set `[(10,50),(20,30)]` (nested intervals, already
start-sorted) the cursor takes the values `0, 50, 30` — it moves backward
from 50 to 30, because each iteration unconditionally sets it to the
current interval's end. -/
theorem removeSegments_cursor_not_monotone :
    ((10 : ℚ) < 50 ∧ (20 : ℚ) < 30)
    ∧ cursorTrace [Seg.mk 10 50, Seg.mk 20 30] = [0, 50, 30]
    ∧ ¬ List.Chain' (fun a b : ℚ => a ≤ b) (cursorTrace [Seg.mk 10 50, Seg.mk 20 30]) := by
  refine ⟨⟨by norm_num, by norm_num⟩, by decide, ?_⟩
  intro h
  have : (50 : ℚ) ≤ 30 := by
    have he : cursorTrace [Seg.mk 10 50, Seg.mk 20 30] = [0, 50, 30] := by decide
    rw [he] at h
    exact (List.chain'_cons.mp (List.chain'_cons.mp h).2).1
  norm_num at this

/-- C6: the extractor fails with `NoTimestampsFound` exactly when fewer
than 2 regex matches exist; a successful result pairs the matches
consecutively in order of appearance (pair `k` is matches `2k` and
`2k+1`), silently discarding a trailing unpaired match; one token fails,
four tokens give two pairs in appearance order, and no `end > start`
validation is performed (a reversed pair is returned as-is). -/
theorem extractTimestamps_pairing_spec :
    (∀ text : String,
      extractTimestampsFromResponse text = .error .noTimestampsFound
        ↔ (timestampMatches text).length < 2)
    ∧ (∀ (text : String) (l : List (String × String)),
        extractTimestampsFromResponse text = .ok l →
          l.length = (timestampMatches text).length / 2
          ∧ ∀ k : ℕ, l[k]? = match (timestampMatches text)[2 * k]?,
              (timestampMatches text)[2 * k + 1]? with
            | some a, some b => some (a, b)
            | _, _ => none)
    ∧ extractTimestampsFromResponse "Event occurs at 00:01:30 in the clip"
        = .error .noTimestampsFound
    ∧ extractTimestampsFromResponse
        "From 00:00:05 to 00:00:10 and from 00:01:00 to 00:02:30.5 end"
        = .ok [("00:00:05", "00:00:10"), ("00:01:00", "00:02:30.5")]
    ∧ extractTimestampsFromResponse "Segment 00:00:10 to 00:00:05"
        = .ok [("00:00:10", "00:00:05")] := by
  refine ⟨fun text => ?_, fun text l hl => ?_, by rfl, by rfl, by rfl⟩
  · simp only [extractTimestampsFromResponse]
    by_cases h2 : 2 ≤ (timestampMatches text).length
    · have hlen : (pairUp (timestampMatches text)).length ≠ 0 := by
        rw [pairUp_length]
        omega
      simp only [if_pos h2, if_neg hlen]
      constructor
      · intro h; exact absurd h (by simp)
      · intro h; omega
    · simp only [if_neg h2, List.length_nil, if_pos rfl]
      exact ⟨fun _ => by omega, fun _ => rfl⟩
  · simp only [extractTimestampsFromResponse] at hl
    by_cases h2 : 2 ≤ (timestampMatches text).length
    · simp only [if_pos h2] at hl
      split at hl
      · exact absurd hl (by simp)
      · rcases Except.ok.inj hl with rfl
        exact ⟨pairUp_length _, fun k => pairUp_getElem? _ k⟩
    · simp only [if_neg h2, List.length_nil, if_pos rfl] at hl
      exact absurd hl (by simp)

/-- C6 witness: the pairing characterization applied to the four-token
text, checked at pair index 1. -/
theorem extractTimestamps_pairing_spec_witness :
    [("00:00:05", "00:00:10"), ("00:01:00", "00:02:30.5")].length
        = (timestampMatches "From 00:00:05 to 00:00:10 and from 00:01:00 to 00:02:30.5 end").length / 2 := by
  have h := extractTimestamps_pairing_spec.2.1
    "From 00:00:05 to 00:00:10 and from 00:01:00 to 00:02:30.5 end"
    [("00:00:05", "00:00:10"), ("00:01:00", "00:02:30.5")] (by rfl)
  exact h.1

theorem extractLoop_created_subset (eok : ℕ → Bool) :
    ∀ (parts : List (ℚ × ℚ)) (i : ℕ),
      ∀ f ∈ (extractLoop eok i parts).2.1, f ∈ (extractLoop eok i parts).1 := by
  intro parts
  induction parts with
  | nil => intro i f hf; simp [extractLoop] at hf
  | cons p rest ih =>
    intro i f hf
    simp only [extractLoop] at hf ⊢
    by_cases h : eok i = true
    · simp only [if_pos h] at hf ⊢
      rcases List.mem_cons.mp hf with rfl | hf
      · exact List.mem_cons_self _ _
      · exact List.mem_cons_of_mem _ (ih (i + 1) f hf)
    · simp only [if_neg h] at hf
      exact absurd hf (List.not_mem_nil f)

theorem extractLoop_nil (eok : ℕ → Bool) (i : ℕ) : extractLoop eok i [] = ([], [], none) := rfl

theorem removeSegmentsRun_created_subset :
    ∀ (probeOk : Bool) (d : ℚ) (segments : List Seg) (extractOk : ℕ → Bool) (concatOk : Bool),
      ∀ f ∈ (removeSegmentsRun probeOk d segments extractOk concatOk).createdScratch,
        f ∈ (removeSegmentsRun probeOk d segments extractOk concatOk).tempFiles := by
  intro pok d segs eok cok f
  cases pok with
  | false =>
    intro hf
    exact absurd hf (List.not_mem_nil f)
  | true =>
    simp only [removeSegmentsRun]
    rcases hE : extractLoop eok 0 (removeSegmentsPlan d segs) with ⟨reg, created, fail⟩
    have hsub2 : ∀ g ∈ created, g ∈ reg := by
      intro g hg
      have := extractLoop_created_subset eok (removeSegmentsPlan d segs) 0 g
      rw [hE] at this
      exact this hg
    cases fail with
    | some i => exact hsub2 f
    | none =>
      by_cases hlen : 0 < (removeSegmentsPlan d segs).length
      · simp only [if_pos hlen]
        intro hf
        rcases List.mem_append.mp hf with hf2 | hf2
        · exact List.mem_append_left _ (hsub2 f hf2)
        · exact List.mem_append_right _ hf2
      · simp only [if_neg hlen]
        exact hsub2 f

/-- C3: every scratch artifact created by a `removeSegments` operation is
registered for cleanup before the step that can throw, on every exit path
(probe failure, any extraction failure, empty retain set, concat failure,
or normal return), so after the `finally` cleanup — which tolerates
already-missing files — zero residual scratch artifacts remain. -/
theorem removeSegmentsRun_no_residual_scratch :
    ∀ (probeOk : Bool) (d : ℚ) (segments : List Seg) (extractOk : ℕ → Bool) (concatOk : Bool),
      residualScratch (removeSegmentsRun probeOk d segments extractOk concatOk) = [] := by
  intro pok d segs eok cok
  refine List.filter_eq_nil_iff.mpr ?_
  intro f hf
  simp only [Bool.not_eq_true', Bool.not_eq_false]
  have hmem := removeSegmentsRun_created_subset pok d segs eok cok f hf
  exact List.elem_eq_true_of_mem hmem

/-- C9: with the duration probe succeeding, the pipeline fails with the
empty-retain error exactly when the planner walk produces zero retain
intervals, whatever the encoder does; and in that case the concatenation is
never attempted and no output is written. In particular duration 100 with
remove `[(0,100)]` fails with the empty-retain error. -/
theorem removeSegmentsRun_emptyRetain_iff :
    (∀ (d : ℚ) (segments : List Seg) (extractOk : ℕ → Bool) (concatOk : Bool),
      ((removeSegmentsRun true d segments extractOk concatOk).result
          = .error .emptyRetain ↔ removeSegmentsPlan d segments = [])
      ∧ (removeSegmentsPlan d segments = [] →
          (removeSegmentsRun true d segments extractOk concatOk).concatAttempted = false
          ∧ (removeSegmentsRun true d segments extractOk concatOk).outputCreated = false))
    ∧ (removeSegmentsRun true 100 [Seg.mk 0 100] (fun _ => true) true).result
        = .error .emptyRetain := by
  have main : ∀ (d : ℚ) (segments : List Seg) (extractOk : ℕ → Bool) (concatOk : Bool),
      ((removeSegmentsRun true d segments extractOk concatOk).result
          = .error .emptyRetain ↔ removeSegmentsPlan d segments = [])
      ∧ (removeSegmentsPlan d segments = [] →
          (removeSegmentsRun true d segments extractOk concatOk).concatAttempted = false
          ∧ (removeSegmentsRun true d segments extractOk concatOk).outputCreated = false) := by
    intro d segs eok cok
    simp only [removeSegmentsRun]
    rcases hparts : removeSegmentsPlan d segs with _ | ⟨p, prest⟩
    · rw [extractLoop_nil]
      simp
    · rcases hE : extractLoop eok 0 (p :: prest) with ⟨reg, created, fail⟩
      cases fail with
      | some i => simp
      | none =>
        simp only [List.length_cons, Nat.zero_lt_succ, if_pos]
        refine ⟨⟨fun h => ?_, fun h => absurd h (by simp)⟩, fun h => absurd h (by simp)⟩
        have h2 : (if cok = true then (Except.ok () : Except SegError Unit)
            else Except.error SegError.concatFailed) = Except.error SegError.emptyRetain := h
        split at h2 <;> exact absurd h2 (by simp)
  exact ⟨main, (main 100 [Seg.mk 0 100] (fun _ => true) true).1.mpr (by decide)⟩

/-- C9 witness: at duration 100 and remove set `[(0,100)]` the planner
produces no retain interval, and the concat step is never attempted. -/
theorem removeSegmentsRun_emptyRetain_iff_witness :
    removeSegmentsPlan 100 [Seg.mk 0 100] = []
    ∧ (removeSegmentsRun true 100 [Seg.mk 0 100] (fun _ => true) true).concatAttempted = false
    ∧ (removeSegmentsRun true 100 [Seg.mk 0 100] (fun _ => true) true).outputCreated = false :=
  ⟨by decide,
    (removeSegmentsRun_emptyRetain_iff.1 100 [Seg.mk 0 100] (fun _ => true) true).2 (by decide)⟩

/-- C10: the keep-one-event operation requires exactly one extracted pair:
whenever the analysis text yields two or more pairs the operation fails
with the expected-exactly-one error before any planning or encoder step,
and it returns a synthesized remove set only when exactly one pair was
extracted. -/
theorem removeEventSegments_exactly_one_gate :
    (∀ (text : String) (totalDuration : ℚ) (l : List (String × String)),
      extractTimestampsFromResponse text = .ok l → 2 ≤ l.length →
        removeEventSegments text totalDuration = .error .expectedExactlyOne)
    ∧ (∀ (text : String) (totalDuration : ℚ) (v : List Seg),
        removeEventSegments text totalDuration = .ok v →
          ∃ p, extractTimestampsFromResponse text = .ok [p]) := by
  constructor
  · intro text dtot l hl h2
    simp only [removeEventSegments, hl]
    have : l.length ≠ 1 := by omega
    simp [this]
  · intro text dtot v hv
    simp only [removeEventSegments] at hv
    rcases hx : extractTimestampsFromResponse text with e | l
    · rw [hx] at hv; exact absurd hv (by simp)
    · rw [hx] at hv
      by_cases h1 : l.length = 1
      · rcases List.length_eq_one.mp h1 with ⟨p, rfl⟩
        exact ⟨p, rfl⟩
      · simp [h1] at hv

/-- C10 witness: a four-token analysis text yields two pairs, and the
operation fails with the expected-exactly-one error. -/
theorem removeEventSegments_exactly_one_gate_witness :
    (2 ≤ ([("00:00:05", "00:00:10"), ("00:01:00", "00:02:30.5")] : List (String × String)).length)
    ∧ removeEventSegments "From 00:00:05 to 00:00:10 and from 00:01:00 to 00:02:30.5 end" 37
        = .error .expectedExactlyOne :=
  ⟨by decide,
    removeEventSegments_exactly_one_gate.1
      "From 00:00:05 to 00:00:10 and from 00:01:00 to 00:02:30.5 end" 37
      [("00:00:05", "00:00:10"), ("00:01:00", "00:02:30.5")] (by rfl) (by decide)⟩

theorem jsParseInt_ne_inf (l : List Char) (s : Bool) : jsParseInt l ≠ .inf s := by
  simp only [jsParseInt]
  split
  · exact fun h => JSNum.noConfusion h
  · split
    · exact fun h => JSNum.noConfusion h
    · exact fun h => JSNum.noConfusion h

theorem jsSum3_nan_iff (a b c : JSNum) (ha : ∀ s, a ≠ .inf s) (hb : ∀ s, b ≠ .inf s) :
    jsAdd (jsAdd (jsAdd (.fin 0) (jsMulConst a 3600)) (jsMulConst b 60)) c = .nan
      ↔ (a = .nan ∨ b = .nan ∨ c = .nan) := by
  rcases a with _ | s | qa
  · simp [jsAdd, jsMulConst]
  · exact absurd rfl (ha s)
  · rcases b with _ | t | qb
    · simp [jsAdd, jsMulConst]
    · exact absurd rfl (hb t)
    · rcases c with _ | u | qc <;> simp [jsAdd, jsMulConst]

theorem jsSum2_nan_iff (a c : JSNum) (ha : ∀ s, a ≠ .inf s) :
    jsAdd (jsAdd (.fin 0) (jsMulConst a 60)) c = .nan ↔ (a = .nan ∨ c = .nan) := by
  rcases a with _ | s | qa
  · simp [jsAdd, jsMulConst]
  · exact absurd rfl (ha s)
  · rcases c with _ | u | qc <;> simp [jsAdd, jsMulConst]

/-- C4: `parseTimeToSeconds` fails exactly when the input is absent (with
the distinct missing-time failure), the trimmed string is empty, the string
contains a colon but does not split into exactly 2 or 3 parts or some
numeric sub-part parses to `NaN`, or the string has no colon and is not
parseable as a float; in particular it fails on the absent input, on the
empty string and on the string ab:cd. -/
theorem parseTimeToSeconds_failure_conditions :
    parseTimeToSeconds none = .error .missingTime
    ∧ (∀ s : String, isOk (parseTimeToSeconds (some s)) = false ↔
        (jsTrim s.data = []
          ∨ ((jsTrim s.data).contains ':' = true ∧
              match jsSplitOn ':' (jsTrim s.data) with
              | [p0, p1, p2] =>
                jsParseInt p0 = .nan ∨ jsParseInt p1 = .nan ∨ jsParseFloat p2 = .nan
              | [p0, p1] => jsParseInt p0 = .nan ∨ jsParseFloat p1 = .nan
              | _ => True)
          ∨ ((jsTrim s.data).contains ':' = false ∧ jsParseFloat (jsTrim s.data) = .nan)))
    ∧ isOk (parseTimeToSeconds (some "")) = false
    ∧ isOk (parseTimeToSeconds (some "ab:cd")) = false := by
  refine ⟨rfl, fun s => ?_, by rfl, by rfl⟩
  simp only [parseTimeToSeconds]
  by_cases h0 : jsTrim s.data = []
  · rw [if_pos h0]
    exact iff_of_true rfl (Or.inl h0)
  · rw [if_neg h0]
    by_cases hc : (jsTrim s.data).contains ':' = true
    · rw [if_pos hc]
      rcases hsp : jsSplitOn ':' (jsTrim s.data) with _ | ⟨p0, _ | ⟨p1, _ | ⟨p2, _ | ⟨p3, t⟩⟩⟩⟩
      · exact iff_of_true rfl (Or.inr (Or.inl ⟨hc, trivial⟩))
      · exact iff_of_true rfl (Or.inr (Or.inl ⟨hc, trivial⟩))
      · have hiff := jsSum2_nan_iff (jsParseInt p0) (jsParseFloat p1) (jsParseInt_ne_inf p0)
        dsimp only
        by_cases ht : jsAdd (jsAdd (.fin 0) (jsMulConst (jsParseInt p0) 60)) (jsParseFloat p1)
            = .nan
        · rw [if_pos ht]
          exact iff_of_true rfl (Or.inr (Or.inl ⟨hc, hiff.mp ht⟩))
        · rw [if_neg ht]
          refine iff_of_false (by simp [isOk]) ?_
          rintro (h | ⟨_, hdisj⟩ | ⟨hcf, _⟩)
          · exact h0 h
          · exact ht (hiff.mpr hdisj)
          · rw [hc] at hcf
            exact Bool.noConfusion hcf
      · have hiff := jsSum3_nan_iff (jsParseInt p0) (jsParseInt p1) (jsParseFloat p2)
          (jsParseInt_ne_inf p0) (jsParseInt_ne_inf p1)
        dsimp only
        by_cases ht : jsAdd (jsAdd (jsAdd (.fin 0) (jsMulConst (jsParseInt p0) 3600))
            (jsMulConst (jsParseInt p1) 60)) (jsParseFloat p2) = .nan
        · rw [if_pos ht]
          exact iff_of_true rfl (Or.inr (Or.inl ⟨hc, hiff.mp ht⟩))
        · rw [if_neg ht]
          refine iff_of_false (by simp [isOk]) ?_
          rintro (h | ⟨_, hdisj⟩ | ⟨hcf, _⟩)
          · exact h0 h
          · exact ht (hiff.mpr hdisj)
          · rw [hc] at hcf
            exact Bool.noConfusion hcf
      · exact iff_of_true rfl (Or.inr (Or.inl ⟨hc, trivial⟩))
    · rw [if_neg hc]
      have hcf : (jsTrim s.data).contains ':' = false := by
        cases hcc : (jsTrim s.data).contains ':'
        · rfl
        · exact absurd hcc hc
      by_cases hp : jsParseFloat (jsTrim s.data) = .nan
      · rw [if_pos hp]
        exact iff_of_true rfl (Or.inr (Or.inr ⟨hcf, hp⟩))
      · rw [if_neg hp]
        refine iff_of_false (by simp [isOk]) ?_
        rintro (h | ⟨hct, _⟩ | ⟨_, hpn⟩)
        · exact h0 h
        · rw [hcf] at hct
          exact Bool.noConfusion hct
        · exact hp hpn

/-- C4 witness: the failure characterization instantiated at the string
ab:cd, whose two colon-parts both parse to `NaN`. -/
theorem parseTimeToSeconds_failure_conditions_witness :
    isOk (parseTimeToSeconds (some "ab:cd")) = false ↔
      (jsTrim "ab:cd".data = []
        ∨ ((jsTrim "ab:cd".data).contains ':' = true ∧
            match jsSplitOn ':' (jsTrim "ab:cd".data) with
            | [p0, p1, p2] =>
              jsParseInt p0 = .nan ∨ jsParseInt p1 = .nan ∨ jsParseFloat p2 = .nan
            | [p0, p1] => jsParseInt p0 = .nan ∨ jsParseFloat p1 = .nan
            | _ => True)
        ∨ ((jsTrim "ab:cd".data).contains ':' = false ∧ jsParseFloat (jsTrim "ab:cd".data) = .nan)) :=
  parseTimeToSeconds_failure_conditions.2.1 "ab:cd"

theorem parse_formula_3part (s : String) (p0 p1 p2 : List Char) (h m sec : ℚ)
    (hc : (jsTrim s.data).contains ':' = true)
    (hsp : jsSplitOn ':' (jsTrim s.data) = [p0, p1, p2])
    (hp0 : jsParseInt p0 = .fin h) (hp1 : jsParseInt p1 = .fin m)
    (hp2 : jsParseFloat p2 = .fin sec) :
    parseTimeToSeconds (some s) = .ok (.fin (h * 3600 + m * 60 + sec)) := by
  have h0 : jsTrim s.data ≠ [] := by
    intro hz
    rw [hz] at hc
    exact Bool.noConfusion hc
  simp only [parseTimeToSeconds]
  rw [if_neg h0, if_pos hc, hsp]
  dsimp only
  rw [hp0, hp1, hp2]
  have hval : jsAdd (jsAdd (jsAdd (.fin 0) (jsMulConst (.fin h) 3600))
      (jsMulConst (.fin m) 60)) (.fin sec) = .fin (h * 3600 + m * 60 + sec) := by
    simp only [jsAdd, jsMulConst, JSNum.fin.injEq]
    push_cast
    ring
  rw [hval]
  simp

theorem parse_formula_2part (s : String) (p0 p1 : List Char) (m sec : ℚ)
    (hc : (jsTrim s.data).contains ':' = true)
    (hsp : jsSplitOn ':' (jsTrim s.data) = [p0, p1])
    (hp0 : jsParseInt p0 = .fin m) (hp1 : jsParseFloat p1 = .fin sec) :
    parseTimeToSeconds (some s) = .ok (.fin (m * 60 + sec)) := by
  have h0 : jsTrim s.data ≠ [] := by
    intro hz
    rw [hz] at hc
    exact Bool.noConfusion hc
  simp only [parseTimeToSeconds]
  rw [if_neg h0, if_pos hc, hsp]
  dsimp only
  rw [hp0, hp1]
  have hval : jsAdd (jsAdd (.fin 0) (jsMulConst (.fin m) 60)) (.fin sec)
      = .fin (m * 60 + sec) := by
    simp only [jsAdd, jsMulConst, JSNum.fin.injEq]
    push_cast
    ring
  rw [hval]
  simp

theorem parse_formula_raw (s : String) (q : ℚ)
    (h0 : jsTrim s.data ≠ [])
    (hc : (jsTrim s.data).contains ':' = false)
    (hq : jsParseFloat (jsTrim s.data) = .fin q) :
    parseTimeToSeconds (some s) = .ok (.fin q) := by
  simp only [parseTimeToSeconds]
  rw [if_neg h0,
    if_neg (fun hcc => Bool.noConfusion (hc ▸ hcc) : ¬(jsTrim s.data).contains ':' = true), hq]
  simp

theorem jsParseFloat_eval_035 : jsParseFloat "03.5".data = .fin (7 / 2) := by
  have h : jsParseFloat "03.5".data
      = .fin (((digitsToNat "03".data : ℚ)
          + (digitsToNat "5".data : ℚ) / (10 : ℚ) ^ "5".data.length) * (10 : ℚ) ^ (0 : ℤ)) := rfl
  rw [h, show digitsToNat "03".data = 3 from by decide,
    show digitsToNat "5".data = 5 from by decide, show "5".data.length = 1 from rfl]
  simp only [JSNum.fin.injEq]
  norm_num

theorem jsParseFloat_eval_03 : jsParseFloat "03".data = .fin 3 := by
  have h : jsParseFloat "03".data
      = .fin (((digitsToNat "03".data : ℚ)
          + (digitsToNat ([] : List Char) : ℚ) / (10 : ℚ) ^ (([] : List Char)).length)
            * (10 : ℚ) ^ (0 : ℤ)) := rfl
  rw [h, show digitsToNat "03".data = 3 from by decide,
    show digitsToNat ([] : List Char) = 0 from rfl]
  simp only [JSNum.fin.injEq]
  norm_num

theorem jsParseFloat_eval_4525 : jsParseFloat "45.25".data = .fin (181 / 4) := by
  have h : jsParseFloat "45.25".data
      = .fin (((digitsToNat "45".data : ℚ)
          + (digitsToNat "25".data : ℚ) / (10 : ℚ) ^ "25".data.length) * (10 : ℚ) ^ (0 : ℤ)) := rfl
  rw [h, show digitsToNat "45".data = 45 from by decide,
    show digitsToNat "25".data = 25 from by decide, show "25".data.length = 2 from rfl]
  simp only [JSNum.fin.injEq]
  norm_num

theorem jsParseFloat_eval_neg5 : jsParseFloat "-5".data = .fin (-5) := by
  have h : jsParseFloat "-5".data
      = .fin (-(((digitsToNat "5".data : ℚ)
          + (digitsToNat ([] : List Char) : ℚ) / (10 : ℚ) ^ (([] : List Char)).length)
            * (10 : ℚ) ^ (0 : ℤ))) := rfl
  rw [h, show digitsToNat "5".data = 5 from by decide,
    show digitsToNat ([] : List Char) = 0 from rfl]
  simp only [JSNum.fin.injEq]
  norm_num

/-- C7: on valid input the parser maps a 3-part colon string to
`hours * 3600 + minutes * 60 + seconds` (seconds may be fractional), a
2-part colon string to `minutes * 60 + seconds`, and a colon-free string to
its float value as raw seconds, with no rounding; in particular
`01:02:03.5` parses to `3723.5`, `02:03` to `123` and `45.25` to `45.25`. -/
theorem parseTimeToSeconds_formula :
    (∀ (s : String) (p0 p1 p2 : List Char) (h m sec : ℚ),
      (jsTrim s.data).contains ':' = true →
      jsSplitOn ':' (jsTrim s.data) = [p0, p1, p2] →
      jsParseInt p0 = .fin h → jsParseInt p1 = .fin m → jsParseFloat p2 = .fin sec →
      parseTimeToSeconds (some s) = .ok (.fin (h * 3600 + m * 60 + sec)))
    ∧ (∀ (s : String) (p0 p1 : List Char) (m sec : ℚ),
      (jsTrim s.data).contains ':' = true →
      jsSplitOn ':' (jsTrim s.data) = [p0, p1] →
      jsParseInt p0 = .fin m → jsParseFloat p1 = .fin sec →
      parseTimeToSeconds (some s) = .ok (.fin (m * 60 + sec)))
    ∧ (∀ (s : String) (q : ℚ),
      jsTrim s.data ≠ [] →
      (jsTrim s.data).contains ':' = false →
      jsParseFloat (jsTrim s.data) = .fin q →
      parseTimeToSeconds (some s) = .ok (.fin q))
    ∧ parseTimeToSeconds (some "01:02:03.5") = .ok (.fin 3723.5)
    ∧ parseTimeToSeconds (some "02:03") = .ok (.fin 123)
    ∧ parseTimeToSeconds (some "45.25") = .ok (.fin 45.25) := by
  refine ⟨fun s p0 p1 p2 h m sec => parse_formula_3part s p0 p1 p2 h m sec,
    fun s p0 p1 m sec => parse_formula_2part s p0 p1 m sec,
    fun s q => parse_formula_raw s q, ?_, ?_, ?_⟩
  · have h := parse_formula_3part "01:02:03.5" "01".data "02".data "03.5".data 1 2 (7 / 2)
      (by rfl) (by rfl) (by decide) (by decide) jsParseFloat_eval_035
    rw [h]
    norm_num
  · have h := parse_formula_2part "02:03" "02".data "03".data 2 3
      (by rfl) (by rfl) (by decide) jsParseFloat_eval_03
    rw [h]
    norm_num
  · have h := parse_formula_raw "45.25" (181 / 4) (by decide) (by rfl) jsParseFloat_eval_4525
    rw [h]
    norm_num

/-- C7 witness: the 3-part rule applied at `01:02:03.5` with components
`1`, `2` and `3.5`. -/
theorem parseTimeToSeconds_formula_witness :
    parseTimeToSeconds (some "01:02:03.5") = .ok (.fin (1 * 3600 + 2 * 60 + 7 / 2)) :=
  parseTimeToSeconds_formula.1 "01:02:03.5" "01".data "02".data "03.5".data 1 2 (7 / 2)
    (by rfl) (by rfl) (by decide) (by decide) jsParseFloat_eval_035

theorem mem_of_mem_jsTrim {a : Char} {l : List Char} (h : a ∈ jsTrim l) : a ∈ l := by
  unfold jsTrim at h
  rw [List.mem_reverse] at h
  have h2 := (List.dropWhile_sublist _).subset h
  rw [List.mem_reverse] at h2
  exact (List.dropWhile_sublist _).subset h2

theorem jsSign_fst_mem {l : List Char} (h : (jsSign l).1 = true) : '-' ∈ l := by
  cases l with
  | nil => exact Bool.noConfusion h
  | cons c rest =>
    simp only [jsSign] at h
    by_cases hc : c = '-'
    · rw [hc]
      exact List.mem_cons_self _ _
    · rw [if_neg hc] at h
      by_cases hp : c = '+'
      · rw [if_pos hp] at h
        exact Bool.noConfusion h
      · rw [if_neg hp] at h
        exact Bool.noConfusion h

theorem jsSplitOn_ne_nil (sep : Char) : ∀ l : List Char, jsSplitOn sep l ≠ [] := by
  intro l
  cases l with
  | nil => simp [jsSplitOn]
  | cons c rest =>
    simp only [jsSplitOn]
    split <;> split <;> simp

theorem mem_of_mem_jsSplitOn (sep : Char) :
    ∀ (l part : List Char), part ∈ jsSplitOn sep l → ∀ a ∈ part, a ∈ l := by
  intro l
  induction l with
  | nil =>
    intro part hp a ha
    simp only [jsSplitOn, List.mem_singleton] at hp
    rw [hp] at ha
    exact absurd ha (List.not_mem_nil a)
  | cons c rest ih =>
    intro part hp a ha
    rcases hrec : jsSplitOn sep rest with _ | ⟨hd, tl⟩
    · exact absurd hrec (jsSplitOn_ne_nil sep rest)
    · simp only [jsSplitOn, hrec] at hp
      by_cases hc : c = sep
      · rw [if_pos hc] at hp
        rcases List.mem_cons.mp hp with rfl | hp2
        · exact absurd ha (List.not_mem_nil a)
        · exact List.mem_cons_of_mem c (ih part (by rw [hrec]; exact hp2) a ha)
      · rw [if_neg hc] at hp
        rcases List.mem_cons.mp hp with rfl | hp2
        · rcases List.mem_cons.mp ha with rfl | ha2
          · exact List.mem_cons_self a rest
          · have hhd : hd ∈ jsSplitOn sep rest := by
              rw [hrec]
              exact List.mem_cons_self hd tl
            exact List.mem_cons_of_mem c (ih hd hhd a ha2)
        · have hpart : part ∈ jsSplitOn sep rest := by
            rw [hrec]
            exact List.mem_cons_of_mem hd hp2
          exact List.mem_cons_of_mem c (ih part hpart a ha)

theorem jsParseInt_fin_nonneg {l : List Char} {q : ℚ} (hm : '-' ∉ l)
    (h : jsParseInt l = .fin q) : 0 ≤ q := by
  have hsf : (jsSign (l.dropWhile Char.isWhitespace)).1 = false := by
    cases hb : (jsSign (l.dropWhile Char.isWhitespace)).1
    · rfl
    · exact absurd ((List.dropWhile_sublist _).subset (jsSign_fst_mem hb)) hm
  simp only [jsParseInt, hsf] at h
  split at h
  · exact absurd h (by simp)
  · rw [if_neg (by simp)] at h
    rw [← JSNum.fin.inj h]
    exact Nat.cast_nonneg _

theorem jsParseFloat_fin_nonneg {l : List Char} {q : ℚ} (hm : '-' ∉ l)
    (h : jsParseFloat l = .fin q) : 0 ≤ q := by
  have hsf : (jsSign (l.dropWhile Char.isWhitespace)).1 = false := by
    cases hb : (jsSign (l.dropWhile Char.isWhitespace)).1
    · rfl
    · exact absurd ((List.dropWhile_sublist _).subset (jsSign_fst_mem hb)) hm
  simp only [jsParseFloat, hsf] at h
  split at h
  · exact absurd h (by simp)
  · split at h
    · exact absurd h (by simp)
    · rw [if_neg (by simp)] at h
      rw [← JSNum.fin.inj h]
      positivity

theorem jsAdd_eq_fin {x y : JSNum} {q : ℚ} (h : jsAdd x y = .fin q) :
    ∃ a b, x = .fin a ∧ y = .fin b ∧ q = a + b := by
  rcases x with _ | s | a
  · exact absurd h (by simp [jsAdd])
  · rcases y with _ | t | b
    · exact absurd h (by simp [jsAdd])
    · simp only [jsAdd] at h
      split at h <;> exact absurd h (by simp)
    · exact absurd h (by simp [jsAdd])
  · rcases y with _ | t | b
    · exact absurd h (by simp [jsAdd])
    · exact absurd h (by simp [jsAdd])
    · simp only [jsAdd] at h
      exact ⟨a, b, rfl, rfl, (JSNum.fin.inj h).symm⟩

theorem jsMulConst_eq_fin {x : JSNum} {n : ℕ} {r : ℚ} (h : jsMulConst x n = .fin r) :
    ∃ a, x = .fin a ∧ r = a * n := by
  rcases x with _ | s | a
  · exact absurd h (by simp [jsMulConst])
  · simp only [jsMulConst] at h
    split at h <;> exact absurd h (by simp)
  · simp only [jsMulConst] at h
    exact ⟨a, rfl, (JSNum.fin.inj h).symm⟩

/-- C8 counterexample: the parser succeeds on the string -5 and returns the
negative value -5. -/
theorem parseTimeToSeconds_negative_value :
    parseTimeToSeconds (some "-5") = .ok (.fin (-5)) ∧ ((-5 : ℚ) < 0) :=
  ⟨parse_formula_raw "-5" (-5) (by decide) (by rfl) jsParseFloat_eval_neg5, by norm_num⟩

/-- C8 (amended): a successful parse returns a non-negative value whenever
the input contains no minus sign; inputs carrying a minus sign can parse to
negative values (see the counterexample). -/
theorem parseTimeToSeconds_no_minus_nonneg (s : String) (q : ℚ)
    (hm : ('-' : Char) ∉ s.data)
    (h : parseTimeToSeconds (some s) = .ok (.fin q)) : 0 ≤ q := by
  have hmt : ('-' : Char) ∉ jsTrim s.data := fun hx => hm (mem_of_mem_jsTrim hx)
  have hnm : ∀ p : List Char, p ∈ jsSplitOn ':' (jsTrim s.data) → ('-' : Char) ∉ p :=
    fun p hp hx => hmt (mem_of_mem_jsSplitOn ':' (jsTrim s.data) p hp '-' hx)
  simp only [parseTimeToSeconds] at h
  by_cases h0 : jsTrim s.data = []
  · rw [if_pos h0] at h
    exact absurd h (by simp)
  · rw [if_neg h0] at h
    by_cases hc : (jsTrim s.data).contains ':' = true
    · rw [if_pos hc] at h
      rcases hsp : jsSplitOn ':' (jsTrim s.data) with _ | ⟨p0, _ | ⟨p1, _ | ⟨p2, _ | ⟨p3, t⟩⟩⟩⟩
      · rw [hsp] at h
        exact absurd h (by simp)
      · rw [hsp] at h
        exact absurd h (by simp)
      · rw [hsp] at h
        dsimp only at h
        split at h
        · exact absurd h (by simp)
        · have htot := Except.ok.inj h
          obtain ⟨x, y, hx, hy, rfl⟩ := jsAdd_eq_fin htot
          obtain ⟨z, w, hz, hw, rfl⟩ := jsAdd_eq_fin hx
          obtain rfl : z = 0 := (JSNum.fin.inj hz).symm
          obtain ⟨a, ha, rfl⟩ := jsMulConst_eq_fin hw
          have ha0 : 0 ≤ a :=
            jsParseInt_fin_nonneg (hnm p0 (by rw [hsp]; exact List.mem_cons_self _ _)) ha
          have hy0 : 0 ≤ y :=
            jsParseFloat_fin_nonneg
              (hnm p1 (by rw [hsp]; exact List.mem_cons_of_mem _ (List.mem_cons_self _ _))) hy
          have m1 : (0 : ℚ) ≤ a * ((60 : ℕ) : ℚ) := mul_nonneg ha0 (by positivity)
          linarith
      · rw [hsp] at h
        dsimp only at h
        split at h
        · exact absurd h (by simp)
        · have htot := Except.ok.inj h
          obtain ⟨x, y, hx, hy, rfl⟩ := jsAdd_eq_fin htot
          obtain ⟨u, v, hu, hv, rfl⟩ := jsAdd_eq_fin hx
          obtain ⟨z, w, hz, hw, rfl⟩ := jsAdd_eq_fin hu
          obtain rfl : z = 0 := (JSNum.fin.inj hz).symm
          obtain ⟨a, ha, rfl⟩ := jsMulConst_eq_fin hw
          obtain ⟨b, hb, rfl⟩ := jsMulConst_eq_fin hv
          have ha0 : 0 ≤ a :=
            jsParseInt_fin_nonneg (hnm p0 (by rw [hsp]; exact List.mem_cons_self _ _)) ha
          have hb0 : 0 ≤ b :=
            jsParseInt_fin_nonneg
              (hnm p1 (by rw [hsp]; exact List.mem_cons_of_mem _ (List.mem_cons_self _ _))) hb
          have hy0 : 0 ≤ y :=
            jsParseFloat_fin_nonneg
              (hnm p2 (by
                rw [hsp]
                exact List.mem_cons_of_mem _ (List.mem_cons_of_mem _ (List.mem_cons_self _ _)))) hy
          have m1 : (0 : ℚ) ≤ a * ((3600 : ℕ) : ℚ) := mul_nonneg ha0 (by positivity)
          have m2 : (0 : ℚ) ≤ b * ((60 : ℕ) : ℚ) := mul_nonneg hb0 (by positivity)
          linarith
      · rw [hsp] at h
        exact absurd h (by simp)
    · rw [if_neg hc] at h
      split at h
      · exact absurd h (by simp)
      · exact jsParseFloat_fin_nonneg hmt (Except.ok.inj h)

/-- C8 witness: the string 45.25 contains no minus sign and its parse
result 181/4 is non-negative. -/
theorem parseTimeToSeconds_no_minus_nonneg_witness :
    (('-' : Char) ∉ "45.25".data) ∧ (0 : ℚ) ≤ 181 / 4 :=
  ⟨by decide, parseTimeToSeconds_no_minus_nonneg "45.25" (181 / 4) (by decide)
    (parse_formula_raw "45.25" (181 / 4) (by decide) (by rfl) jsParseFloat_eval_4525)⟩

theorem digitChar_inj_fin :
    ∀ a b : Fin 10, Nat.digitChar a.val = Nat.digitChar b.val → a = b := by decide

theorem digitChar_inj_lt {a b : ℕ} (ha : a < 10) (hb : b < 10)
    (h : Nat.digitChar a = Nat.digitChar b) : a = b :=
  congrArg Fin.val (digitChar_inj_fin ⟨a, ha⟩ ⟨b, hb⟩ h)

theorem toDigitsCore_eq_digits :
    ∀ (fuel n : ℕ) (ds : List Char), n < fuel →
      Nat.toDigitsCore 10 fuel n ds
        = (if n = 0 then ['0'] else ((Nat.digits 10 n).map Nat.digitChar).reverse) ++ ds := by
  intro fuel
  induction fuel with
  | zero => intro n ds h; omega
  | succ f ih =>
    intro n ds h
    simp only [Nat.toDigitsCore]
    by_cases hdiv : n / 10 = 0
    · rw [if_pos hdiv]
      by_cases hn : n = 0
      · subst hn
        simp [Nat.digitChar]
      · rw [if_neg hn]
        have hlt : n < 10 := by omega
        rw [Nat.digits_of_lt 10 n hn hlt]
        simp [Nat.mod_eq_of_lt hlt]
    · rw [if_neg hdiv]
      have hn : n ≠ 0 := by omega
      have hrec := ih (n / 10) (Nat.digitChar (n % 10) :: ds) (by omega)
      rw [hrec, if_neg hdiv,
        Nat.digits_def' (by norm_num : (1 : ℕ) < 10) (Nat.pos_of_ne_zero hn)]
      rw [if_neg hn]
      simp [List.append_assoc]

theorem nat_repr_eq_digits (n : ℕ) :
    Nat.repr n
      = (if n = 0 then ['0'] else ((Nat.digits 10 n).map Nat.digitChar).reverse).asString := by
  show (Nat.toDigitsCore 10 (n + 1) n []).asString = _
  rw [toDigitsCore_eq_digits (n + 1) n [] (Nat.lt_succ_self n)]
  simp

theorem digits_map_digitChar_inj :
    ∀ l1 l2 : List ℕ, (∀ x ∈ l1, x < 10) → (∀ x ∈ l2, x < 10) →
      l1.map Nat.digitChar = l2.map Nat.digitChar → l1 = l2 := by
  intro l1
  induction l1 with
  | nil =>
    intro l2 _ _ h
    cases l2 with
    | nil => rfl
    | cons b t => exact absurd h (by simp)
  | cons a t1 ih =>
    intro l2 h1 h2 h
    cases l2 with
    | nil => exact absurd h (by simp)
    | cons b t2 =>
      simp only [List.map_cons, List.cons.injEq] at h
      have hab : a = b :=
        digitChar_inj_lt (h1 a (List.mem_cons_self a t1)) (h2 b (List.mem_cons_self b t2)) h.1
      have ht : t1 = t2 :=
        ih t2 (fun x hx => h1 x (List.mem_cons_of_mem a hx))
          (fun x hx => h2 x (List.mem_cons_of_mem b hx)) h.2
      rw [hab, ht]

theorem digits_eq_of_nat_repr_eq {m n : ℕ} (h : Nat.repr m = Nat.repr n) :
    Nat.digits 10 m = Nat.digits 10 n := by
  rw [nat_repr_eq_digits, nat_repr_eq_digits, List.asString_inj] at h
  have hz : ∀ k : ℕ, k ≠ 0 →
      ((Nat.digits 10 k).map Nat.digitChar).reverse = ['0'] → False := by
    intro k hk hrev
    have hmap : (Nat.digits 10 k).map Nat.digitChar = ['0'] := by
      have := congrArg List.reverse hrev
      rw [List.reverse_reverse] at this
      rw [this]
      rfl
    rcases hd : Nat.digits 10 k with _ | ⟨d, rest⟩
    · rw [hd] at hmap
      exact absurd hmap (by simp)
    · rw [hd] at hmap
      simp only [List.map_cons, List.cons.injEq, List.map_eq_nil_iff] at hmap
      have hd10 : d < 10 :=
        Nat.digits_lt_base (by norm_num) (hd ▸ List.mem_cons_self d rest)
      have hd0 : d = 0 := digitChar_inj_lt hd10 (by norm_num) hmap.1
      have hofd := Nat.ofDigits_digits 10 k
      rw [hd, hmap.2, hd0] at hofd
      simp [Nat.ofDigits] at hofd
      exact hk hofd.symm
  by_cases hm : m = 0 <;> by_cases hn : n = 0
  · rw [hm, hn]
  · rw [if_pos hm, if_neg hn] at h
    exact absurd h.symm (fun hh => hz n hn hh)
  · rw [if_neg hm, if_pos hn] at h
    exact absurd h (fun hh => hz m hm hh)
  · rw [if_neg hm, if_neg hn] at h
    have hmap := List.reverse_injective h
    exact congrArg (Nat.digits 10) rfl ▸ digits_map_digitChar_inj _ _
      (fun x hx => Nat.digits_lt_base (by norm_num) hx)
      (fun x hx => Nat.digits_lt_base (by norm_num) hx) hmap

theorem nat_repr_injective {m n : ℕ} (h : Nat.repr m = Nat.repr n) : m = n := by
  have hd := digits_eq_of_nat_repr_eq h
  have h1 := Nat.ofDigits_digits 10 m
  have h2 := Nat.ofDigits_digits 10 n
  rw [hd] at h1
  rw [h2] at h1
  exact h1.symm

theorem tempPartName_inj {i j : ℕ} (h : tempPartName i = tempPartName j) : i = j := by
  unfold tempPartName at h
  have hd := congrArg String.data h
  simp only [String.data_append] at hd
  rw [List.append_assoc, List.append_assoc] at hd
  have h2 := List.append_cancel_left hd
  have h3 := List.append_cancel_right h2
  exact nat_repr_injective (String.ext h3 : Nat.repr i = Nat.repr j)

theorem tempPartName_ne_concat (i : ℕ) : tempPartName i ≠ concatListName := by
  intro h
  have hd := congrArg String.data h
  unfold tempPartName at hd
  simp only [String.data_append] at hd
  rw [List.append_assoc] at hd
  have h5 : (['t', 'e', 'm', 'p', '_', 'p', 'a', 'r', 't', '_']
      ++ ((toString i).data ++ ['.', 'm', 'p', '4']))[5]? = concatListName.data[5]? :=
    congrArg (fun l : List Char => l[5]?) hd
  rw [List.getElem?_append_left (by decide : (5 : ℕ)
      < (['t', 'e', 'm', 'p', '_', 'p', 'a', 'r', 't', '_'] : List Char).length)] at h5
  exact absurd h5 (by decide)

theorem extractLoop_reg_names (eok : ℕ → Bool) :
    ∀ (parts : List (ℚ × ℚ)) (i : ℕ),
      List.Nodup (extractLoop eok i parts).1
      ∧ ∀ f ∈ (extractLoop eok i parts).1, ∃ k, i ≤ k ∧ f = tempPartName k := by
  intro parts
  induction parts with
  | nil =>
    intro i
    exact ⟨List.nodup_nil, by simp [extractLoop]⟩
  | cons p rest ih =>
    intro i
    simp only [extractLoop]
    by_cases h : eok i = true
    · rw [if_pos h]
      obtain ⟨hnd, hnames⟩ := ih (i + 1)
      constructor
      · refine List.nodup_cons.mpr ⟨?_, hnd⟩
        intro hmem
        obtain ⟨k, hk, hfk⟩ := hnames _ hmem
        have : i = k := tempPartName_inj hfk
        omega
      · intro f hf
        rcases List.mem_cons.mp hf with rfl | hf2
        · exact ⟨i, le_refl i, rfl⟩
        · obtain ⟨k, hk, hfk⟩ := hnames f hf2
          exact ⟨k, by omega, hfk⟩
    · rw [if_neg h]
      refine ⟨List.nodup_singleton _, ?_⟩
      intro f hf
      rcases List.mem_singleton.mp hf with rfl
      exact ⟨i, le_refl i, rfl⟩

theorem removeSegmentsRun_tempFiles_nodup :
    ∀ (probeOk : Bool) (d : ℚ) (segments : List Seg) (extractOk : ℕ → Bool) (concatOk : Bool),
      List.Nodup (removeSegmentsRun probeOk d segments extractOk concatOk).tempFiles := by
  intro pok d segs eok cok
  cases pok with
  | false => exact List.nodup_nil
  | true =>
    simp only [removeSegmentsRun]
    rcases hE : extractLoop eok 0 (removeSegmentsPlan d segs) with ⟨reg, created, fail⟩
    have h2 := extractLoop_reg_names eok (removeSegmentsPlan d segs) 0
    rw [hE] at h2
    obtain ⟨hnd, hnames⟩ := h2
    cases fail with
    | some i => exact hnd
    | none =>
      by_cases hlen : 0 < (removeSegmentsPlan d segs).length
      · simp only [if_pos hlen]
        refine List.Nodup.append hnd (List.nodup_singleton _) ?_
        intro f hf1 hf2
        obtain ⟨k, _, hfk⟩ := hnames f hf1
        rcases List.mem_singleton.mp hf2 with rfl
        exact tempPartName_ne_concat k (hfk ▸ rfl)
      · simp only [if_neg hlen]
        exact hnd

theorem tempPartName_zero_mem_tempFiles (d : ℚ) (segs : List Seg)
    (eok : ℕ → Bool) (cok : Bool) (hne : removeSegmentsPlan d segs ≠ []) :
    tempPartName 0 ∈ (removeSegmentsRun true d segs eok cok).tempFiles := by
  simp only [removeSegmentsRun]
  rcases hparts : removeSegmentsPlan d segs with _ | ⟨p, prest⟩
  · exact absurd hparts hne
  · simp only [extractLoop]
    rcases hr : extractLoop eok (0 + 1) prest with ⟨rreg, rcre, rfail⟩
    by_cases h0 : eok 0 = true
    · rw [if_pos h0]
      cases rfail with
      | some i => exact List.mem_cons_self _ _
      | none =>
        by_cases hlen : 0 < (p :: prest).length
        · simp only [if_pos hlen]
          exact List.mem_append_left _ (List.mem_cons_self _ _)
        · simp only [if_neg hlen]
          exact List.mem_cons_self _ _
    · rw [if_neg h0]
      exact List.mem_cons_self _ _

/-- C5 counterexample: two distinct concurrently running operations (with
different durations and remove sets) allocate the same scratch path
`temp_part_0.mp4` — the allocated path sets are not disjoint, because the
names are fixed literals not scoped by any per-operation identifier. -/
theorem scratch_paths_collide_across_operations :
    "temp_part_0.mp4" ∈ (removeSegmentsRun true 100 [Seg.mk 10 20] (fun _ => true) true).tempFiles
    ∧ "temp_part_0.mp4" ∈ (removeSegmentsRun true 60 [Seg.mk 5 6] (fun _ => true) true).tempFiles
    ∧ ¬ List.Disjoint
        (removeSegmentsRun true 100 [Seg.mk 10 20] (fun _ => true) true).tempFiles
        (removeSegmentsRun true 60 [Seg.mk 5 6] (fun _ => true) true).tempFiles := by
  have m1 : "temp_part_0.mp4"
      ∈ (removeSegmentsRun true 100 [Seg.mk 10 20] (fun _ => true) true).tempFiles := by decide
  have m2 : "temp_part_0.mp4"
      ∈ (removeSegmentsRun true 60 [Seg.mk 5 6] (fun _ => true) true).tempFiles := by decide
  exact ⟨m1, m2, fun hd => hd m1 m2⟩

/-- C5 (amended): within one operation scratch paths are collision-free —
distinct segment indices receive distinct paths, every part path differs
from the manifest path, and the registered path list of any run is
duplicate-free — but the names are fixed literals shared by every
operation: any two operations with non-empty retain sets allocate
overlapping (non-disjoint) scratch path sets. -/
theorem tempArtifacts_unique_within_operation :
    (∀ i j : ℕ, i ≠ j → tempPartName i ≠ tempPartName j)
    ∧ (∀ i : ℕ, tempPartName i ≠ concatListName)
    ∧ (∀ (probeOk : Bool) (d : ℚ) (segments : List Seg) (extractOk : ℕ → Bool)
        (concatOk : Bool),
        List.Nodup (removeSegmentsRun probeOk d segments extractOk concatOk).tempFiles)
    ∧ (∀ (d1 d2 : ℚ) (s1 s2 : List Seg) (e1 e2 : ℕ → Bool) (c1 c2 : Bool),
        removeSegmentsPlan d1 s1 ≠ [] → removeSegmentsPlan d2 s2 ≠ [] →
        ¬ List.Disjoint (removeSegmentsRun true d1 s1 e1 c1).tempFiles
            (removeSegmentsRun true d2 s2 e2 c2).tempFiles) :=
  ⟨fun _ _ hij h => hij (tempPartName_inj h),
    tempPartName_ne_concat,
    removeSegmentsRun_tempFiles_nodup,
    fun d1 d2 s1 s2 e1 e2 c1 c2 h1 h2 hdisj =>
      hdisj (tempPartName_zero_mem_tempFiles d1 s1 e1 c1 h1)
        (tempPartName_zero_mem_tempFiles d2 s2 e2 c2 h2)⟩

/-- C5 witness: indices 0 and 1 receive distinct paths, and the two
concrete operations of the counterexample have non-empty plans and
non-disjoint scratch path sets. -/
theorem tempArtifacts_unique_within_operation_witness :
    ((0 : ℕ) ≠ 1)
    ∧ tempPartName 0 ≠ tempPartName 1
    ∧ removeSegmentsPlan 100 [Seg.mk 10 20] ≠ []
    ∧ removeSegmentsPlan 60 [Seg.mk 5 6] ≠ []
    ∧ ¬ List.Disjoint (removeSegmentsRun true 100 [Seg.mk 10 20] (fun _ => true) true).tempFiles
        (removeSegmentsRun true 60 [Seg.mk 5 6] (fun _ => true) true).tempFiles :=
  ⟨by decide, tempArtifacts_unique_within_operation.1 0 1 (by decide), by decide, by decide,
    tempArtifacts_unique_within_operation.2.2.2 100 60 [Seg.mk 10 20] [Seg.mk 5 6]
      (fun _ => true) (fun _ => true) true true (by decide) (by decide)⟩

end VideoMCP
